import Mathlib

/-!
Shallow embedding of `kl.py` (Kernighan–Lin two-way graph partitioning).

Modelling conventions:
* A Python `Vertex` object is identified by its integer `id` (the input
  contract supplies unique ids); the mutable `partition_label` field is
  modelled as an explicit state `Nat → Option Label` passed around the
  engine (`None`/`"A"`/`"B"` become `none`/`some Label.A`/`some Label.B`).
* A Python `Edge` object is identified by its index in the graph's edge
  list, so `set`-intersections of edge objects become operations on index
  lists; the immutable `left_id`/`right_id` fields live in `Edge`.
* `Vertex.edges` (the adjacency list) becomes `Graph.adj : Nat → List Nat`,
  mapping a vertex id to the list of edge indices added by `add_edge`.
* The `KeyError` raised by `vertex_dict[...]` in `Graph.__init__` when an
  edge references an unknown vertex id (the spec's `UnknownVertexError`)
  is modelled with `Except`.
-/

inductive Label where
  | A : Label
  | B : Label
deriving DecidableEq, Repr

structure Edge where
  left_id : Nat
  right_id : Nat
deriving DecidableEq, Repr

instance : Inhabited Edge := ⟨⟨0, 0⟩⟩

/-- `Vertex.add_edge`: append edge index `i` (whose fields are `e`) to the
adjacency list `l` unless some already-present edge has the two endpoint ids
swapped (the guard `e.left_id == edge.right_id and e.right_id == edge.left_id`
from the source). -/
def add_edge (edges : List Edge) (e : Edge) (i : Nat) (l : List Nat) : List Nat :=
  if l.any (fun j => ((edges.getD j default).left_id == e.right_id) &&
                     ((edges.getD j default).right_id == e.left_id))
  then l
  else l ++ [i]

structure Graph where
  vertices : List Nat
  edges : List Edge
  adj : Nat → List Nat

inductive BuildError where
  | unknownVertex : Nat → BuildError
deriving DecidableEq, Repr

/-- The edge-linking loop of `Graph.__init__`: walk the edge list (worklist
`rest`, current index `k`), look up both endpoints in the vertex table
(raising for the left id first, as `vertex_dict[edge.left_id]` runs before
`vertex_dict[edge.right_id]`), then `add_edge` to the left endpoint and then
to the right endpoint. -/
def initAdj (edges : List Edge) (vs : List Nat) :
    List Edge → Nat → (Nat → List Nat) → Except BuildError (Nat → List Nat)
  | [], _, adj => .ok adj
  | e :: rest, k, adj =>
    if e.left_id ∈ vs then
      if e.right_id ∈ vs then
        let adj1 : Nat → List Nat :=
          fun x => if x = e.left_id then add_edge edges e k (adj e.left_id) else adj x
        let adj2 : Nat → List Nat :=
          fun x => if x = e.right_id then add_edge edges e k (adj1 e.right_id) else adj1 x
        initAdj edges vs rest (k + 1) adj2
      else .error (.unknownVertex e.right_id)
    else .error (.unknownVertex e.left_id)

/-- `Graph.__init__` on a vertex id list and an edge list. -/
def Graph.init (vs : List Nat) (es : List Edge) : Except BuildError Graph :=
  (initAdj es vs es 0 (fun _ => [])).map (fun adj => ⟨vs, es, adj⟩)

/-- Convenience: the graph built by `Graph.init`, defaulting to the empty
graph (used only to name concrete test graphs; the accompanying theorems
re-state that `Graph.init` really returns them). -/
def graphOf (vs : List Nat) (es : List Edge) : Graph :=
  (Graph.init vs es).toOption.getD ⟨[], [], fun _ => []⟩

/-- `Vertex.get_D_value`: fold over the vertex's adjacency list; for each
edge the opposite endpoint is `left_id` when `right_id` equals this vertex,
else `right_id`; count `+1` when the labels differ, `-1` when they agree. -/
def get_D_value (g : Graph) (L : Nat → Option Label) (v : Nat) : Int :=
  (g.adj v).foldl
    (fun D j =>
      let e := g.edges.getD j default
      let other := if e.right_id = v then e.left_id else e.right_id
      D + (if L other ≠ L v then 1 else -1))
    0

/-- `len(set(a.edges).intersection(b.edges))`: the number of distinct edge
objects (indices) common to the two adjacency lists. -/
def cab (g : Graph) (a b : Nat) : Nat :=
  (((g.adj a).filter (fun j => decide (j ∈ g.adj b))).dedup).length

/-- `Graph.get_partition_cost`: the number of edges whose endpoints carry
different labels. -/
def get_partition_cost (g : Graph) (L : Nat → Option Label) : Nat :=
  (g.edges.filter (fun e => decide (L e.left_id ≠ L e.right_id))).length

/-- One step `i` of the initial bisection loop:
`vertices[i].partition_label = "A"; vertices[i+half].partition_label = "B"`
(the `B` write happens second, so it wins on a collision). -/
def bisectStep (g : Graph) (L : Nat → Option Label) (i : Nat) : Nat → Option Label :=
  let L1 : Nat → Option Label :=
    fun x => if x = g.vertices.getD i 0 then some Label.A else L x
  fun x => if x = g.vertices.getD (i + g.vertices.length / 2) 0
           then some Label.B else L1 x

/-- The label state after the first `m` steps of the bisection loop. -/
def bisectPartial (g : Graph) (m : Nat) : Nat → Option Label :=
  (List.range m).foldl (bisectStep g) (fun _ => none)

/-- The initial positional bisection of `partition`:
`for i in range(half): vertices[i] ← A; vertices[i+half] ← B`. -/
def setInitialLabels (g : Graph) : Nat → Option Label :=
  bisectPartial g (g.vertices.length / 2)

/-- The members of group A in graph-insertion order (`group_a` in the source). -/
def groupA (g : Graph) (L : Nat → Option Label) : List Nat :=
  g.vertices.filter (fun v => decide (L v = some Label.A))

/-- The members of group B in graph-insertion order (`group_b` in the source). -/
def groupB (g : Graph) (L : Nat → Option Label) : List Nat :=
  g.vertices.filter (fun v => decide (L v = some Label.B))

/-- The candidate list `gains`: outer loop over `group_a`, inner loop over
`group_b`, each entry carrying the pair and
`D_values[a.id] + D_values[b.id] - 2 * c_ab`. -/
def gainsOf (g : Graph) (L : Nat → Option Label) : List ((Nat × Nat) × Int) :=
  (groupA g L).flatMap (fun a =>
    (groupB g L).map (fun b =>
      ((a, b), get_D_value g L a + get_D_value g L b - 2 * (cab g a b : Int))))

/-- Stable insertion step for a descending sort on the gain component: the
new element goes in front of the first entry whose gain is not larger. -/
def insertDesc (x : (Nat × Nat) × Int) :
    List ((Nat × Nat) × Int) → List ((Nat × Nat) × Int)
  | [] => [x]
  | y :: ys => if y.2 ≤ x.2 then x :: y :: ys else y :: insertDesc x ys

/-- `sorted(gains, key=lambda x: x[1], reverse=True)`: a stable sort in
descending gain order (the output of a stable sort is uniquely determined by
the key preorder, so stable insertion sort computes exactly Python's
`sorted`). -/
def sortGainsDesc : List ((Nat × Nat) × Int) → List ((Nat × Nat) × Int)
  | [] => []
  | x :: xs => insertDesc x (sortGainsDesc xs)

/-- `gains[0]` after the descending stable sort (`none` on an empty
candidate list, where Python would raise `IndexError`; `partition` only
evaluates it with both groups nonempty). -/
def selectPair (gains : List ((Nat × Nat) × Int)) : Option ((Nat × Nat) × Int) :=
  (sortGainsDesc gains).head?

/-- The label state after `pair[0].partition_label = "B";
pair[1].partition_label = "A"` (the second write wins if the ids coincide,
which cannot happen for a pair drawn from the two disjoint groups). -/
def swapLabels (L : Nat → Option Label) (a b : Nat) : Nat → Option Label :=
  fun x => if x = b then some Label.A else if x = a then some Label.B else L x

/-- The two post-swap `D_values` update loops: for each remaining `x` in
group A (the group with the swapped-out `a` removed) add
`2*c(x,a) - 2*c(x,b)`, then for each remaining `y` in group B add
`2*c(y,b) - 2*c(y,a)`. -/
def updateDValues (g : Graph) (D : Nat → Int) (ga gb : List Nat) (a b : Nat) :
    Nat → Int :=
  let D1 := ga.foldl
    (fun D x => fun z =>
      if z = x then D x + 2 * (cab g x a : Int) - 2 * (cab g x b : Int) else D z)
    D
  gb.foldl
    (fun D y => fun z =>
      if z = y then D y + 2 * (cab g y b : Int) - 2 * (cab g y a : Int) else D z)
    D1

/-- One body of the outer `for _ in range(half)` loop, including the dead
`D_values` update loops; returns `none` on `break` (best gain `≤ 0`), else
the new label state together with the final value of the local `D_values`
table. -/
def klBody (g : Graph) (L : Nat → Option Label) :
    Option ((Nat → Option Label) × (Nat → Int)) :=
  match selectPair (gainsOf g L) with
  | none => none
  | some ((a, b), maxGain) =>
    if maxGain ≤ 0 then none
    else
      let L' := swapLabels L a b
      let D' := updateDValues g (fun v => get_D_value g L v)
                  ((groupA g L).erase a) ((groupB g L).erase b) a b
      some (L', D')

/-- The loop body with the two `D_values` update loops removed (the variant
described by the claim; everything else is unchanged). -/
def klBodyNoUpdate (g : Graph) (L : Nat → Option Label) :
    Option (Nat → Option Label) :=
  match selectPair (gainsOf g L) with
  | none => none
  | some ((a, b), maxGain) =>
    if maxGain ≤ 0 then none
    else some (swapLabels L a b)

/-- The outer loop: up to `fuel` iterations, stopping at the first body that
breaks; only the label state survives an iteration (`D_values` is rebuilt
from scratch at the top of every body). -/
def klLoop (g : Graph) : Nat → (Nat → Option Label) → (Nat → Option Label)
  | 0, L => L
  | n + 1, L =>
    match klBody g L with
    | none => L
    | some (L', _) => klLoop g n L'

/-- The `klLoop` variant built on `klBodyNoUpdate`. -/
def klLoopNoUpdate (g : Graph) : Nat → (Nat → Option Label) → (Nat → Option Label)
  | 0, L => L
  | n + 1, L =>
    match klBodyNoUpdate g L with
    | none => L
    | some L' => klLoopNoUpdate g n L'

/-- One outer iteration as a total step on label states (identity once the
loop has broken). -/
def klStep (g : Graph) (L : Nat → Option Label) : Nat → Option Label :=
  match klBody g L with
  | none => L
  | some (L', _) => L'

/-- The label state after the initial bisection and `k` outer iterations. -/
def stateAfter (g : Graph) : Nat → (Nat → Option Label)
  | 0 => setInitialLabels g
  | k + 1 => klStep g (stateAfter g k)

/-- `KernighanLin.partition`: initial bisection, at most
`len(vertices) // 2` outer iterations, then the final cut cost and the two
groups (the source returns the cut cost as a string; we keep the number). -/
def partition (g : Graph) : Nat × List Nat × List Nat :=
  let L := klLoop g (g.vertices.length / 2) (setInitialLabels g)
  (get_partition_cost g L, groupA g L, groupB g L)

/-- `partition` with the post-swap `D_values` update loops removed. -/
def partitionNoUpdate (g : Graph) : Nat × List Nat × List Nat :=
  let L := klLoopNoUpdate g (g.vertices.length / 2) (setInitialLabels g)
  (get_partition_cost g L, groupA g L, groupB g L)

/-- The number of outer-loop bodies actually executed by `partition` before
the loop breaks or the fuel runs out. -/
def klIterCount (g : Graph) : Nat → (Nat → Option Label) → Nat
  | 0, _ => 0
  | n + 1, L =>
    match klBody g L with
    | none => 0
    | some (L', _) => klIterCount g n L' + 1

/-- Outer iterations executed by a full run of `partition`. -/
def iterationsExecuted (g : Graph) : Nat :=
  klIterCount g (g.vertices.length / 2) (setInitialLabels g)

/-- Modelled from the spec: the first pair attaining the maximum gain in
candidate-generation order (a later entry replaces the current answer only
when its gain is strictly larger). -/
def firstMaxSpec : List ((Nat × Nat) × Int) → Option ((Nat × Nat) × Int)
  | [] => none
  | x :: xs =>
    match firstMaxSpec xs with
    | none => some x
    | some m => if x.2 < m.2 then some m else some x

-- Semantic layer used by the proofs (specification-side definitions).

/-- Two edge indices whose edges are not reverses of each other — the
relation the `add_edge` guard maintains inside every adjacency list. -/
def notRev (es : List Edge) (i j : Nat) : Prop :=
  ¬((es.getD i default).left_id = (es.getD j default).right_id ∧
    (es.getD i default).right_id = (es.getD j default).left_id)

/-- An edge is incident to the vertex id `v`. -/
def isIncident (v : Nat) (e : Edge) : Prop :=
  e.left_id = v ∨ e.right_id = v

instance (v : Nat) (e : Edge) : Decidable (isIncident v e) := by
  unfold isIncident
  infer_instance

/-- The endpoint of `e` opposite to `v`, exactly as `get_D_value` computes
it (`left_id` when `right_id` equals the vertex, else `right_id`). -/
def eOther (v : Nat) (e : Edge) : Nat :=
  if e.right_id = v then e.left_id else e.right_id

/-- Per-edge contribution to the cut cost. -/
def cutTerm (L : Nat → Option Label) (e : Edge) : Int :=
  if L e.left_id ≠ L e.right_id then 1 else 0

/-- Per-edge contribution to `get_D_value` of vertex `v`. -/
def dTerm (L : Nat → Option Label) (v : Nat) (e : Edge) : Int :=
  if isIncident v e then (if L (eOther v e) ≠ L v then 1 else -1) else 0

/-- Per-edge contribution to `c_ab` (1 when the edge joins `a` and `b`). -/
def cTerm (a b : Nat) (e : Edge) : Int :=
  if isIncident a e ∧ isIncident b e then 1 else 0

/-- A graph whose adjacency lists are exactly the incident edge indices, in
edge-list order — what `Graph.init` produces when no reversed-duplicate
edges occur in the input. -/
def GoodAdj (g : Graph) : Prop :=
  ∀ v, g.adj v = (List.range g.edges.length).filter
    (fun i => decide (isIncident v (g.edges.getD i default)))

/-- Every vertex of the graph carries a label in state `L`. -/
def allSome (g : Graph) (L : Nat → Option Label) : Prop :=
  ∀ v ∈ g.vertices, (L v).isSome

-- Concrete graphs used by the scenario claims and counterexamples.

/-- Scenario A: the 4-cycle. -/
def cycleEdges : List Edge := [⟨1, 2⟩, ⟨2, 3⟩, ⟨3, 4⟩, ⟨4, 1⟩]

def g4 : Graph := graphOf [1, 2, 3, 4] cycleEdges

/-- Same unordered pair twice in identical orientation. -/
def dupEdges : List Edge := [⟨1, 2⟩, ⟨1, 2⟩]

def gDup : Graph := graphOf [1, 2] dupEdges

/-- Same unordered pair twice in opposite orientations, plus edges that make
the first iteration accept a swap. -/
def revEdges : List Edge := [⟨1, 3⟩, ⟨3, 1⟩]

def gRev : Graph := graphOf [1, 2, 3, 4] revEdges

/-- Three vertices, two edges to the would-be-unassigned third vertex. -/
def oddEdges : List Edge := [⟨1, 3⟩, ⟨2, 3⟩]

def gOdd : Graph := graphOf [1, 2, 3] oddEdges

/-- A graph whose first iteration accepts a gain-2 swap (used as witness for
the gain-consistency theorem). -/
def crossEdges : List Edge := [⟨1, 3⟩, ⟨1, 4⟩, ⟨2, 3⟩, ⟨2, 4⟩]

def gCross : Graph := graphOf [1, 2, 3, 4] crossEdges

/-- Cut-increase example: a same-side pair joined by three parallel copies
(one in adjacency, three in the edge list), plus edges that make the first
iteration accept a swap of one endpoint. -/
def incEdges : List Edge := [⟨1, 2⟩, ⟨2, 1⟩, ⟨2, 1⟩, ⟨1, 3⟩, ⟨1, 4⟩, ⟨3, 2⟩]

def gInc : Graph := graphOf [1, 2, 3, 4] incEdges

def gEmpty : Graph := graphOf [] []

-- General helper lemmas shared between claims.

theorem klBody_map_fst (g : Graph) (L : Nat → Option Label) :
    (klBody g L).map Prod.fst = klBodyNoUpdate g L := by
  unfold klBody klBodyNoUpdate
  cases selectPair (gainsOf g L) with
  | none => rfl
  | some p =>
    obtain ⟨⟨a, b⟩, mg⟩ := p
    by_cases h : mg ≤ 0 <;> simp [h]

theorem klLoopNoUpdate_eq (g : Graph) :
    ∀ n L, klLoopNoUpdate g n L = klLoop g n L := by
  intro n
  induction n with
  | zero => intro L; rfl
  | succ n ih =>
    intro L
    have h := klBody_map_fst g L
    cases hb : klBody g L with
    | none =>
      rw [hb] at h
      simp only [Option.map_none'] at h
      simp [klLoop, klLoopNoUpdate, hb, ← h]
    | some p =>
      rw [hb] at h
      simp only [Option.map_some'] at h
      simp [klLoop, klLoopNoUpdate, hb, ← h, ih]

theorem klIterCount_le (g : Graph) : ∀ n L, klIterCount g n L ≤ n := by
  intro n
  induction n with
  | zero => intro L; exact Nat.le_refl 0
  | succ n ih =>
    intro L
    cases hb : klBody g L with
    | none => simp [klIterCount, hb]
    | some p => simpa [klIterCount, hb] using ih p.1

theorem head_sortGainsDesc (l : List ((Nat × Nat) × Int)) :
    (sortGainsDesc l).head? = firstMaxSpec l := by
  induction l with
  | nil => rfl
  | cons x xs ih =>
    cases h : sortGainsDesc xs with
    | nil =>
      rw [h] at ih
      simp only [List.head?] at ih
      simp [sortGainsDesc, h, insertDesc, firstMaxSpec, ← ih]
    | cons y ys =>
      rw [h] at ih
      simp only [List.head?] at ih
      simp only [sortGainsDesc, h, insertDesc, firstMaxSpec, ← ih]
      by_cases hle : y.2 ≤ x.2
      · rw [if_pos hle, if_neg (by omega)]
        rfl
      · rw [if_neg hle, if_pos (by omega)]
        simp

theorem firstMaxSpec_mem {l : List ((Nat × Nat) × Int)} {x : (Nat × Nat) × Int}
    (h : firstMaxSpec l = some x) : x ∈ l := by
  induction l with
  | nil => simp [firstMaxSpec] at h
  | cons y ys ih =>
    cases hm : firstMaxSpec ys with
    | none =>
      have hstep : firstMaxSpec (y :: ys) = some y := by rw [firstMaxSpec, hm]
      rw [hstep] at h
      injection h with h
      simp [h]
    | some m =>
      have hstep : firstMaxSpec (y :: ys) = if y.2 < m.2 then some m else some y := by
        rw [firstMaxSpec, hm]
      rw [hstep] at h
      by_cases hlt : y.2 < m.2
      · rw [if_pos hlt] at h
        injection h with h
        exact List.mem_cons_of_mem _ (ih (h ▸ hm))
      · rw [if_neg hlt] at h
        injection h with h
        simp [h]

-- C1 --------------------------------------------------------------------

/-- C1 counterexample: on the 4-cycle with vertices 1,2,3,4 the initial
split is A={1,2}, B={3,4} with cut cost 2, but the first iteration's best
gain is 0, so the loop breaks at once and `partition` finishes with cut
cost 2, not 0. -/
theorem scenarioA_cut_not_zero :
    Graph.init [1, 2, 3, 4] cycleEdges = .ok g4 ∧ (partition g4).1 ≠ 0 :=
  ⟨rfl, by decide⟩

/-- C1 amended: on the 4-cycle the run starts from A={1,2}, B={3,4} with
cut cost 2, the first iteration's maximum gain is 0 (first maximal pair
(1,3)), so no swap is accepted and `partition` returns cut cost 2 with the
groups unchanged. -/
theorem scenarioA_result :
    groupA g4 (stateAfter g4 0) = [1, 2] ∧
    groupB g4 (stateAfter g4 0) = [3, 4] ∧
    get_partition_cost g4 (stateAfter g4 0) = 2 ∧
    selectPair (gainsOf g4 (stateAfter g4 0)) = some ((1, 3), 0) ∧
    partition g4 = (2, [1, 2], [3, 4]) := by decide

-- C3 --------------------------------------------------------------------

/-- C3 counterexample: the edge list `[(1,2),(1,2)]` (the same unordered
pair twice in identical orientation) leaves both copies in vertex 1's
adjacency list — `add_edge` only collapses the reversed orientation. -/
theorem duplicate_edge_retained :
    Graph.init [1, 2] dupEdges = .ok gDup ∧
    gDup.adj 1 = [0, 1] ∧ gDup.adj 2 = [0, 1] ∧
    gDup.edges.getD 0 default = ⟨1, 2⟩ ∧ gDup.edges.getD 1 default = ⟨1, 2⟩ :=
  ⟨rfl, by decide⟩

-- C7 --------------------------------------------------------------------

/-- C7: on the empty graph, construction succeeds, the loop budget is 0, no
outer iteration runs, and `partition` returns cut cost 0 with two empty
groups; every definition involved is total, so no failure can occur. -/
theorem empty_graph_partition :
    Graph.init [] [] = .ok gEmpty ∧
    gEmpty.vertices.length / 2 = 0 ∧
    iterationsExecuted gEmpty = 0 ∧
    partition gEmpty = (0, [], []) :=
  ⟨rfl, by decide⟩

-- C8 --------------------------------------------------------------------

/-- C8: the outer loop of `partition` executes at most
`⌊|V|/2⌋` iterations. -/
theorem outer_loop_at_most_half (g : Graph) :
    iterationsExecuted g ≤ g.vertices.length / 2 :=
  klIterCount_le g _ _

-- C10 -------------------------------------------------------------------

/-- C10: removing the two post-swap `D_values` update loops does not change
the result of `partition`: the table is rebuilt from scratch at the top of
every outer iteration and never read after the update within an iteration. -/
theorem partition_no_update_eq (g : Graph) : partitionNoUpdate g = partition g := by
  unfold partition partitionNoUpdate
  rw [klLoopNoUpdate_eq]

-- C6 --------------------------------------------------------------------

/-- C6: the pair the engine selects (head of the stable descending sort of
the candidate list) is exactly the first pair attaining the maximum gain in
candidate-generation order — outer loop over group A, inner loop over group
B, both in graph insertion order. -/
theorem selected_pair_first_max (g : Graph) (L : Nat → Option Label) :
    selectPair (gainsOf g L) = firstMaxSpec (gainsOf g L) :=
  head_sortGainsDesc _

-- C9 --------------------------------------------------------------------

theorem initAdj_error_of_unknown (es : List Edge) (vs : List Nat) :
    ∀ (rest : List Edge) (k : Nat) (adj : Nat → List Nat),
      (∃ e ∈ rest, e.left_id ∉ vs ∨ e.right_id ∉ vs) →
      ∃ i, i ∉ vs ∧ initAdj es vs rest k adj = .error (.unknownVertex i) := by
  intro rest
  induction rest with
  | nil => intro k adj h; simp at h
  | cons e rest ih =>
    intro k adj h
    by_cases hL : e.left_id ∈ vs
    · by_cases hR : e.right_id ∈ vs
      · have hrest : ∃ e ∈ rest, e.left_id ∉ vs ∨ e.right_id ∉ vs := by
          obtain ⟨f, hf, hbad⟩ := h
          rcases List.mem_cons.1 hf with rfl | hf'
          · rcases hbad with hb | hb
            · exact absurd hL hb
            · exact absurd hR hb
          · exact ⟨f, hf', hbad⟩
        obtain ⟨i, hi, heq⟩ := ih (k + 1) _ hrest
        exact ⟨i, hi, by simp [initAdj, hL, hR]; exact heq⟩
      · exact ⟨e.right_id, hR, by simp [initAdj, hL, hR]⟩
    · exact ⟨e.left_id, hL, by simp [initAdj, hL]⟩

/-- C9: whenever the edge list references a vertex id absent from the vertex
list, `Graph.init` fails with the unknown-vertex error (modelling the
`KeyError` raised by the `vertex_dict` lookup, the realization of the spec's
`UnknownVertexError`); construction never completes silently. -/
theorem init_error_on_unknown_vertex (vs : List Nat) (es : List Edge)
    (h : ∃ e ∈ es, e.left_id ∉ vs ∨ e.right_id ∉ vs) :
    ∃ i, i ∉ vs ∧ Graph.init vs es = .error (.unknownVertex i) := by
  obtain ⟨i, hi, heq⟩ := initAdj_error_of_unknown es vs es 0 (fun _ => []) h
  exact ⟨i, hi, by simp [Graph.init, heq, Except.map]⟩

/-- C9 witness: the concrete edge list `[(1,2)]` over vertex list `[1]`
references the unknown id 2, and construction indeed fails. -/
theorem init_error_on_unknown_vertex_witness :
    (∃ e ∈ ([⟨1, 2⟩] : List Edge), e.left_id ∉ [1] ∨ e.right_id ∉ [1]) ∧
    ∃ i, i ∉ [1] ∧ Graph.init [1] [⟨1, 2⟩] = .error (.unknownVertex i) :=
  ⟨by decide, init_error_on_unknown_vertex [1] [⟨1, 2⟩] (by decide)⟩

-- C3 amended invariant ---------------------------------------------------

theorem notRev_symm (es : List Edge) : Symmetric (notRev es) := by
  intro i j h hc
  exact h ⟨hc.2.symm, hc.1.symm⟩

theorem pairwise_add_edge (es : List Edge) (e : Edge) (k : Nat) (l : List Nat)
    (hk : es.getD k default = e) (hl : l.Pairwise (notRev es)) :
    (add_edge es e k l).Pairwise (notRev es) := by
  unfold add_edge
  split
  · exact hl
  · rename_i hguard
    rw [List.pairwise_append]
    refine ⟨hl, by simp, ?_⟩
    intro j hj i hi
    simp only [List.mem_singleton] at hi
    subst hi
    intro hc
    apply hguard
    refine List.any_eq_true.2 ⟨j, hj, ?_⟩
    rw [Bool.and_eq_true, beq_iff_eq, beq_iff_eq]
    rw [hk] at hc
    exact hc

theorem graph_init_elim {vs : List Nat} {es : List Edge} {g : Graph}
    (hinit : Graph.init vs es = .ok g) :
    g.vertices = vs ∧ g.edges = es ∧
      initAdj es vs es 0 (fun _ => []) = .ok g.adj := by
  unfold Graph.init at hinit
  cases h : initAdj es vs es 0 (fun _ => []) with
  | error err => rw [h] at hinit; simp [Except.map] at hinit
  | ok adj0 =>
    rw [h] at hinit
    simp only [Except.map, Except.ok.injEq] at hinit
    subst hinit
    exact ⟨rfl, rfl, rfl⟩

theorem initAdj_pairwise (es : List Edge) (vs : List Nat) :
    ∀ (rest : List Edge) (k : Nat) (adj : Nat → List Nat),
      rest = es.drop k →
      (∀ v, (adj v).Pairwise (notRev es)) →
      ∀ adj', initAdj es vs rest k adj = .ok adj' →
      ∀ v, (adj' v).Pairwise (notRev es) := by
  intro rest
  induction rest with
  | nil =>
    intro k adj _ hadj adj' hok v
    simp only [initAdj, Except.ok.injEq] at hok
    subst hok
    exact hadj v
  | cons e rest ih =>
    intro k adj hdrop hadj adj' hok v
    have hk : k < es.length := by
      by_contra hge
      rw [List.drop_eq_nil_iff.2 (Nat.le_of_not_lt hge)] at hdrop
      cases hdrop
    have hdrop' := hdrop
    rw [List.drop_eq_getElem_cons hk] at hdrop'
    injection hdrop' with h1 h2
    have hke : es.getD k default = e := by
      rw [List.getD_eq_getElem es default hk, ← h1]
    by_cases hL : e.left_id ∈ vs
    · by_cases hR : e.right_id ∈ vs
      · simp only [initAdj, if_pos hL, if_pos hR] at hok
        refine ih (k + 1) _ h2 ?_ adj' hok v
        intro w
        by_cases hw2 : w = e.right_id
        · simp only [hw2, if_pos rfl]
          apply pairwise_add_edge es e k _ hke
          by_cases hw1 : e.right_id = e.left_id
          · rw [if_pos hw1]
            exact pairwise_add_edge es e k _ hke (hadj _)
          · rw [if_neg hw1]
            exact hadj _
        · simp only [if_neg hw2]
          by_cases hw1 : w = e.left_id
          · rw [if_pos hw1]
            exact pairwise_add_edge es e k _ hke (hadj _)
          · rw [if_neg hw1]
            exact hadj _
      · simp [initAdj, hL, hR] at hok
    · simp [initAdj, hL] at hok

/-- C3 amended: after a successful `Graph.init`, no adjacency list holds two
distinct edge objects that are reverses of each other (duplicates in the
reversed orientation are collapsed); duplicates of the same pair in
identical orientation are retained, as the counterexample shows. -/
theorem adjacency_no_reversed_duplicates (vs : List Nat) (es : List Edge)
    (g : Graph) (hinit : Graph.init vs es = .ok g) :
    ∀ v i j, i ∈ g.adj v → j ∈ g.adj v → i ≠ j →
      ¬((g.edges.getD i default).left_id = (g.edges.getD j default).right_id ∧
        (g.edges.getD i default).right_id = (g.edges.getD j default).left_id) := by
  obtain ⟨hv, he, hadj⟩ := graph_init_elim hinit
  intro v i j hi hj hij
  have hpw := initAdj_pairwise es vs es 0 (fun _ => []) rfl
    (fun _ => List.Pairwise.nil) g.adj hadj v
  rw [he]
  exact hpw.forall (notRev_symm es) hi hj hij

/-- C3 amended witness: on the 4-cycle, indices 0 and 3 both sit in vertex
1's adjacency list and are not reverses of each other. -/
theorem adjacency_no_reversed_duplicates_witness :
    Graph.init [1, 2, 3, 4] cycleEdges = .ok g4 ∧
    0 ∈ g4.adj 1 ∧ 3 ∈ g4.adj 1 ∧ (0 : Nat) ≠ 3 ∧
    ¬((g4.edges.getD 0 default).left_id = (g4.edges.getD 3 default).right_id ∧
      (g4.edges.getD 0 default).right_id = (g4.edges.getD 3 default).left_id) :=
  ⟨rfl, by decide, by decide, by decide,
    adjacency_no_reversed_duplicates [1, 2, 3, 4] cycleEdges g4 rfl 1 0 3
      (by decide) (by decide) (by decide)⟩

-- Initial bisection characterization -------------------------------------

theorem getD_inj {l : List Nat} (hnd : l.Nodup) {i j : Nat}
    (hi : i < l.length) (hj : j < l.length)
    (h : l.getD i 0 = l.getD j 0) : i = j := by
  rw [List.getD_eq_getElem _ _ hi, List.getD_eq_getElem _ _ hj] at h
  exact (hnd.getElem_inj_iff).1 h

theorem bisectPartial_succ (g : Graph) (m : Nat) :
    bisectPartial g (m + 1) = bisectStep g (bisectPartial g m) m := by
  unfold bisectPartial
  rw [List.range_succ, List.foldl_append]
  rfl

theorem bisectStep_apply (g : Graph) (L : Nat → Option Label) (i x : Nat) :
    bisectStep g L i x =
      if x = g.vertices.getD (i + g.vertices.length / 2) 0 then some Label.B
      else if x = g.vertices.getD i 0 then some Label.A
      else L x := rfl

theorem bisectPartial_spec (g : Graph) (hnd : g.vertices.Nodup) :
    ∀ m, m ≤ g.vertices.length / 2 →
      (∀ i, i < m →
        bisectPartial g m (g.vertices.getD i 0) = some Label.A) ∧
      (∀ i, i < m →
        bisectPartial g m
          (g.vertices.getD (i + g.vertices.length / 2) 0) = some Label.B) ∧
      (∀ x, (∀ i, i < m → g.vertices.getD i 0 ≠ x ∧
          g.vertices.getD (i + g.vertices.length / 2) 0 ≠ x) →
        bisectPartial g m x = none) := by
  intro m
  induction m with
  | zero =>
    intro _
    refine ⟨fun i hi => absurd hi (Nat.not_lt_zero i),
            fun i hi => absurd hi (Nat.not_lt_zero i), fun x _ => rfl⟩
  | succ m ih =>
    intro hm1
    have hm : m ≤ g.vertices.length / 2 := Nat.le_of_succ_le hm1
    have hmhalf : m < g.vertices.length / 2 := hm1
    have hhalf_le : g.vertices.length / 2 ≤ g.vertices.length :=
      Nat.div_le_self _ _
    obtain ⟨ihA, ihB, ihN⟩ := ih hm
    refine ⟨?_, ?_, ?_⟩
    · intro i hi
      rw [bisectPartial_succ, bisectStep_apply]
      by_cases hieq : i = m
      · subst hieq
        rw [if_neg, if_pos rfl]
        intro h
        have := getD_inj hnd (by omega) (by omega) h
        omega
      · have hi' : i < m := by omega
        rw [if_neg, if_neg]
        · exact ihA i hi'
        · intro h
          have := getD_inj hnd (by omega) (by omega) h
          omega
        · intro h
          have := getD_inj hnd (by omega) (by omega) h
          omega
    · intro i hi
      rw [bisectPartial_succ, bisectStep_apply]
      by_cases hieq : i = m
      · subst hieq
        rw [if_pos rfl]
      · have hi' : i < m := by omega
        rw [if_neg, if_neg]
        · exact ihB i hi'
        · intro h
          have := getD_inj hnd (by omega) (by omega) h
          omega
        · intro h
          have := getD_inj hnd (by omega) (by omega) h
          omega
    · intro x hx
      rw [bisectPartial_succ, bisectStep_apply]
      have hxm := hx m (Nat.lt_succ_self m)
      rw [if_neg (Ne.symm hxm.2), if_neg (Ne.symm hxm.1)]
      exact ihN x (fun i hi => hx i (Nat.lt_succ_of_lt hi))

theorem mem_take_index {l : List Nat} {m : Nat} {x : Nat} (hx : x ∈ l.take m) :
    ∃ i, i < m ∧ i < l.length ∧ l.getD i 0 = x := by
  obtain ⟨i, hi, hgi⟩ := List.mem_iff_getElem.1 hx
  have hi' : i < m ⊓ l.length := by
    simpa [List.length_take] using hi
  have him : i < m := lt_of_lt_of_le hi' (min_le_left _ _)
  have hil : i < l.length := lt_of_lt_of_le hi' (min_le_right _ _)
  refine ⟨i, him, hil, ?_⟩
  rw [List.getD_eq_getElem _ _ hil, ← hgi, List.getElem_take]

theorem mem_drop_index {l : List Nat} {m : Nat} {x : Nat} (hx : x ∈ l.drop m) :
    ∃ j, m + j < l.length ∧ l.getD (m + j) 0 = x := by
  obtain ⟨j, hj, hgj⟩ := List.mem_iff_getElem.1 hx
  have hj' : m + j < l.length := by
    have := List.length_drop m l
    omega
  refine ⟨j, hj', ?_⟩
  rw [List.getD_eq_getElem _ _ hj', ← hgj, List.getElem_drop]

theorem getD_drop (l : List Nat) (m i : Nat) (h : i < (l.drop m).length) :
    (l.drop m).getD i 0 = l.getD (m + i) 0 := by
  have h2 : m + i < l.length := by
    have := List.length_drop m l
    omega
  rw [List.getD_eq_getElem _ _ h, List.getD_eq_getElem _ _ h2, List.getElem_drop]

theorem initial_label_take (g : Graph) (hnd : g.vertices.Nodup) :
    ∀ x ∈ g.vertices.take (g.vertices.length / 2),
      setInitialLabels g x = some Label.A := by
  intro x hx
  obtain ⟨hA, _, _⟩ := bisectPartial_spec g hnd (g.vertices.length / 2) le_rfl
  obtain ⟨i, him, hil, hgd⟩ := mem_take_index hx
  rw [setInitialLabels, ← hgd]
  exact hA i him

theorem initial_label_mid (g : Graph) (hnd : g.vertices.Nodup) :
    ∀ x ∈ (g.vertices.drop (g.vertices.length / 2)).take (g.vertices.length / 2),
      setInitialLabels g x = some Label.B := by
  intro x hx
  obtain ⟨_, hB, _⟩ := bisectPartial_spec g hnd (g.vertices.length / 2) le_rfl
  obtain ⟨i, him, hil, hgd⟩ := mem_take_index hx
  rw [setInitialLabels, ← hgd, getD_drop _ _ _ hil, Nat.add_comm]
  exact hB i him

theorem initial_label_rest (g : Graph) (hnd : g.vertices.Nodup) :
    ∀ x ∈ g.vertices.drop (g.vertices.length / 2 + g.vertices.length / 2),
      setInitialLabels g x = none := by
  intro x hx
  obtain ⟨_, _, hN⟩ := bisectPartial_spec g hnd (g.vertices.length / 2) le_rfl
  have hhalf_le : g.vertices.length / 2 ≤ g.vertices.length := Nat.div_le_self _ _
  obtain ⟨j, hj, hgd⟩ := mem_drop_index hx
  rw [setInitialLabels, ← hgd]
  apply hN
  intro i hi
  constructor
  · intro h
    have := getD_inj hnd (by omega) (by omega) h
    omega
  · intro h
    have := getD_inj hnd (by omega) (by omega) h
    omega

theorem initial_group_lengths (g : Graph) (hnd : g.vertices.Nodup) :
    (groupA g (setInitialLabels g)).length = g.vertices.length / 2 ∧
    (groupB g (setInitialLabels g)).length = g.vertices.length / 2 := by
  have hhalf_le : g.vertices.length / 2 ≤ g.vertices.length := Nat.div_le_self _ _
  have hdecomp : g.vertices = g.vertices.take (g.vertices.length / 2) ++
      ((g.vertices.drop (g.vertices.length / 2)).take (g.vertices.length / 2) ++
       (g.vertices.drop (g.vertices.length / 2)).drop (g.vertices.length / 2)) := by
    rw [List.take_append_drop, List.take_append_drop]
  constructor
  · have h1 : (g.vertices.take (g.vertices.length / 2)).filter
        (fun v => decide (setInitialLabels g v = some Label.A)) =
        g.vertices.take (g.vertices.length / 2) := by
      rw [List.filter_eq_self]
      intro x hx
      simp [initial_label_take g hnd x hx]
    have h2 : ((g.vertices.drop (g.vertices.length / 2)).take
        (g.vertices.length / 2)).filter
        (fun v => decide (setInitialLabels g v = some Label.A)) = [] := by
      rw [List.filter_eq_nil_iff]
      intro x hx
      simp [initial_label_mid g hnd x hx]
    have h3 : ((g.vertices.drop (g.vertices.length / 2)).drop
        (g.vertices.length / 2)).filter
        (fun v => decide (setInitialLabels g v = some Label.A)) = [] := by
      rw [List.drop_drop, List.filter_eq_nil_iff]
      intro x hx
      simp [initial_label_rest g hnd x hx]
    unfold groupA
    conv_lhs => rw [hdecomp]
    rw [List.filter_append, List.filter_append, h1, h2, h3]
    simp [List.length_take]
    omega
  · have h1 : (g.vertices.take (g.vertices.length / 2)).filter
        (fun v => decide (setInitialLabels g v = some Label.B)) = [] := by
      rw [List.filter_eq_nil_iff]
      intro x hx
      simp [initial_label_take g hnd x hx]
    have h2 : ((g.vertices.drop (g.vertices.length / 2)).take
        (g.vertices.length / 2)).filter
        (fun v => decide (setInitialLabels g v = some Label.B)) =
        (g.vertices.drop (g.vertices.length / 2)).take (g.vertices.length / 2) := by
      rw [List.filter_eq_self]
      intro x hx
      simp [initial_label_mid g hnd x hx]
    have h3 : ((g.vertices.drop (g.vertices.length / 2)).drop
        (g.vertices.length / 2)).filter
        (fun v => decide (setInitialLabels g v = some Label.B)) = [] := by
      rw [List.drop_drop, List.filter_eq_nil_iff]
      intro x hx
      simp [initial_label_rest g hnd x hx]
    unfold groupB
    conv_lhs => rw [hdecomp]
    rw [List.filter_append, List.filter_append, h1, h2, h3]
    simp [List.length_take, List.length_drop]
    omega

theorem allSome_initial (g : Graph) (hnd : g.vertices.Nodup)
    (heven : g.vertices.length % 2 = 0) : allSome g (setInitialLabels g) := by
  intro v hv
  obtain ⟨hA, hB, _⟩ := bisectPartial_spec g hnd (g.vertices.length / 2) le_rfl
  obtain ⟨i, hil, hgi⟩ := List.mem_iff_getElem.1 hv
  have hgd : g.vertices.getD i 0 = v := by
    rw [List.getD_eq_getElem _ _ hil, hgi]
  by_cases hi : i < g.vertices.length / 2
  · have hs := hA i hi
    rw [hgd] at hs
    rw [setInitialLabels, hs]
    rfl
  · have hi2 : i - g.vertices.length / 2 < g.vertices.length / 2 := by omega
    have hs := hB (i - g.vertices.length / 2) hi2
    have hidx : i - g.vertices.length / 2 + g.vertices.length / 2 = i := by omega
    rw [hidx, hgd] at hs
    rw [setInitialLabels, hs]
    rfl

-- Structure of an accepted iteration --------------------------------------

theorem klBody_some_elim {g : Graph} {L : Nat → Option Label}
    {X : (Nat → Option Label) × (Nat → Int)} (h : klBody g L = some X) :
    ∃ a b mg, selectPair (gainsOf g L) = some ((a, b), mg) ∧ 0 < mg ∧
      X.1 = swapLabels L a b ∧
      L a = some Label.A ∧ L b = some Label.B ∧
      a ∈ g.vertices ∧ b ∈ g.vertices ∧
      mg = get_D_value g L a + get_D_value g L b - 2 * (cab g a b : Int) := by
  unfold klBody at h
  cases hsel : selectPair (gainsOf g L) with
  | none => rw [hsel] at h; cases h
  | some p =>
    obtain ⟨⟨a, b⟩, mg⟩ := p
    rw [hsel] at h
    dsimp only at h
    by_cases hmg : mg ≤ 0
    · rw [if_pos hmg] at h; cases h
    · rw [if_neg hmg] at h
      have hfm : firstMaxSpec (gainsOf g L) = some ((a, b), mg) := by
        rw [← head_sortGainsDesc]
        exact hsel
      have hmem := firstMaxSpec_mem hfm
      unfold gainsOf at hmem
      obtain ⟨a', ha', hmap⟩ := List.mem_flatMap.1 hmem
      obtain ⟨b', hb', heq⟩ := List.mem_map.1 hmap
      simp only [Prod.mk.injEq] at heq
      obtain ⟨⟨rfl, rfl⟩, hmgval⟩ := heq
      obtain ⟨haV, hpa⟩ := List.mem_filter.1 ha'
      obtain ⟨hbV, hpb⟩ := List.mem_filter.1 hb'
      refine ⟨a', b', mg, rfl, by omega, ?_, ?_, ?_, haV, hbV, hmgval.symm⟩
      · injection h with h2
        rw [← h2]
      · exact of_decide_eq_true hpa
      · exact of_decide_eq_true hpb

theorem klStep_stable (g : Graph) {L : Nat → Option Label}
    (h : klBody g L = none) : ∀ n, (klStep g)^[n] L = L := by
  intro n
  induction n with
  | zero => rfl
  | succ n ih =>
    rw [Function.iterate_succ_apply]
    have hL : klStep g L = L := by simp [klStep, h]
    rw [hL, ih]

theorem klLoop_eq_iterate (g : Graph) : ∀ n L, klLoop g n L = (klStep g)^[n] L := by
  intro n
  induction n with
  | zero => intro L; rfl
  | succ n ih =>
    intro L
    cases hb : klBody g L with
    | none =>
      have hL : klStep g L = L := by simp [klStep, hb]
      rw [Function.iterate_succ_apply, hL, klStep_stable g hb n]
      simp [klLoop, hb]
    | some p =>
      obtain ⟨L', D'⟩ := p
      have hL : klStep g L = L' := by simp [klStep, hb]
      rw [Function.iterate_succ_apply, hL]
      simp [klLoop, hb, ih]

theorem stateAfter_eq_iterate (g : Graph) :
    ∀ k, stateAfter g k = (klStep g)^[k] (setInitialLabels g) := by
  intro k
  induction k with
  | zero => rfl
  | succ k ih =>
    rw [Function.iterate_succ_apply' (klStep g) k]
    rw [stateAfter, ih]

theorem partition_final_state (g : Graph) :
    partition g = (get_partition_cost g (stateAfter g (g.vertices.length / 2)),
      groupA g (stateAfter g (g.vertices.length / 2)),
      groupB g (stateAfter g (g.vertices.length / 2))) := by
  unfold partition
  rw [klLoop_eq_iterate, ← stateAfter_eq_iterate]

-- Group sizes are preserved by an accepted swap ---------------------------

theorem count_swap (vs : List Nat) (hnd : vs.Nodup) (L : Nat → Option Label)
    (a b : Nat) (ha : a ∈ vs) (hb : b ∈ vs)
    (hLa : L a = some Label.A) (hLb : L b = some Label.B) (t : Label) :
    (vs.filter (fun v => decide (swapLabels L a b v = some t))).length =
      (vs.filter (fun v => decide (L v = some t))).length := by
  have hab : a ≠ b := by
    intro h
    rw [h, hLb] at hLa
    cases hLa
  have hb' : b ∈ vs.erase a := (List.mem_erase_of_ne (Ne.symm hab)).2 hb
  have p3 : vs.Perm (a :: b :: (vs.erase a).erase b) :=
    (List.perm_cons_erase ha).trans ((List.perm_cons_erase hb').cons a)
  rw [← List.countP_eq_length_filter, ← List.countP_eq_length_filter,
      p3.countP_eq, p3.countP_eq, List.countP_cons, List.countP_cons,
      List.countP_cons, List.countP_cons]
  have hrest : List.countP (fun v => decide (swapLabels L a b v = some t))
      ((vs.erase a).erase b) =
      List.countP (fun v => decide (L v = some t)) ((vs.erase a).erase b) := by
    rw [List.countP_eq_length_filter, List.countP_eq_length_filter]
    congr 1
    apply List.filter_congr
    intro x hx
    obtain ⟨hxb, hx'⟩ := ((hnd.erase a).mem_erase_iff).1 hx
    obtain ⟨hxa, _⟩ := (hnd.mem_erase_iff).1 hx'
    simp [swapLabels, hxa, hxb]
  rw [hrest]
  have hsa : swapLabels L a b a = some Label.B := by
    simp [swapLabels, hab]
  have hsb : swapLabels L a b b = some Label.A := by
    simp [swapLabels]
  cases t <;> simp [hsa, hsb, hLa, hLb]

theorem group_lengths_step (g : Graph) (hnd : g.vertices.Nodup)
    (L : Nat → Option Label) :
    (groupA g (klStep g L)).length = (groupA g L).length ∧
    (groupB g (klStep g L)).length = (groupB g L).length := by
  cases hb : klBody g L with
  | none =>
    have hL : klStep g L = L := by simp [klStep, hb]
    rw [hL]
    exact ⟨rfl, rfl⟩
  | some X =>
    obtain ⟨a, b, mg, hsel, hpos, hX1, hLa, hLb, haV, hbV, hmg⟩ :=
      klBody_some_elim hb
    have hstep : klStep g L = swapLabels L a b := by
      simp [klStep, hb, hX1]
    rw [hstep]
    exact ⟨count_swap _ hnd L a b haV hbV hLa hLb Label.A,
           count_swap _ hnd L a b haV hbV hLa hLb Label.B⟩

theorem group_lengths_stateAfter (g : Graph) (hnd : g.vertices.Nodup) :
    ∀ k, (groupA g (stateAfter g k)).length = g.vertices.length / 2 ∧
         (groupB g (stateAfter g k)).length = g.vertices.length / 2 := by
  intro k
  induction k with
  | zero => exact initial_group_lengths g hnd
  | succ k ih =>
    have hstep := group_lengths_step g hnd (stateAfter g k)
    rw [stateAfter]
    exact ⟨hstep.1.trans ih.1, hstep.2.trans ih.2⟩

-- C2 amended theorem -----------------------------------------------------

/-- C2 amended: the bisection loop labels the first `⌊n/2⌋` vertices A and
the next `⌊n/2⌋` vertices B; for odd `n` the last vertex keeps no label and
belongs to neither group, so at every point during and after the run
`|group A| = |group B| = ⌊n/2⌋` (hence `|A| + |B| = |V|` exactly when `|V|`
is even). -/
theorem initial_bisection_conservation (g : Graph) (hnd : g.vertices.Nodup) :
    (∀ i, i < g.vertices.length / 2 →
      setInitialLabels g (g.vertices.getD i 0) = some Label.A) ∧
    (∀ i, i < g.vertices.length / 2 →
      setInitialLabels g
        (g.vertices.getD (i + g.vertices.length / 2) 0) = some Label.B) ∧
    (g.vertices.length % 2 = 1 →
      setInitialLabels g (g.vertices.getD (g.vertices.length - 1) 0) = none) ∧
    (∀ k, (groupA g (stateAfter g k)).length = g.vertices.length / 2 ∧
          (groupB g (stateAfter g k)).length = g.vertices.length / 2) ∧
    (partition g).2.1.length = g.vertices.length / 2 ∧
    (partition g).2.2.length = g.vertices.length / 2 := by
  obtain ⟨hA, hB, hN⟩ := bisectPartial_spec g hnd (g.vertices.length / 2) le_rfl
  have hhalf_le : g.vertices.length / 2 ≤ g.vertices.length := Nat.div_le_self _ _
  refine ⟨fun i hi => hA i hi, fun i hi => hB i hi, ?_,
    group_lengths_stateAfter g hnd, ?_, ?_⟩
  · intro hodd
    rw [setInitialLabels]
    apply hN
    intro i hi
    constructor
    · intro h
      have := getD_inj hnd (by omega) (by omega) h
      omega
    · intro h
      have := getD_inj hnd (by omega) (by omega) h
      omega
  · rw [partition_final_state]
    exact (group_lengths_stateAfter g hnd _).1
  · rw [partition_final_state]
    exact (group_lengths_stateAfter g hnd _).2

/-- C2 amended witness: the odd three-vertex graph instantiates every part
of the amended bisection/conservation theorem. -/
theorem initial_bisection_conservation_witness :
    ([1, 2, 3] : List Nat).Nodup ∧
    setInitialLabels gOdd (gOdd.vertices.getD 0 0) = some Label.A ∧
    setInitialLabels gOdd
      (gOdd.vertices.getD (0 + gOdd.vertices.length / 2) 0) = some Label.B ∧
    setInitialLabels gOdd (gOdd.vertices.getD (gOdd.vertices.length - 1) 0) = none ∧
    (groupA gOdd (stateAfter gOdd 1)).length = gOdd.vertices.length / 2 ∧
    (partition gOdd).2.1.length = gOdd.vertices.length / 2 :=
  ⟨by decide,
   (initial_bisection_conservation gOdd (by decide)).1 0 (by decide),
   (initial_bisection_conservation gOdd (by decide)).2.1 0 (by decide),
   (initial_bisection_conservation gOdd (by decide)).2.2.1 (by decide),
   ((initial_bisection_conservation gOdd (by decide)).2.2.2.1 1).1,
   (initial_bisection_conservation gOdd (by decide)).2.2.2.2.1⟩

-- C2 counterexample ------------------------------------------------------

/-- C2 counterexample: with the odd vertex list `[1,2,3]` the bisection
loop labels vertex 1 A and vertex 2 B but never touches vertex 3 (it stays
unassigned instead of joining B), so `|group A| + |group B| = 2 ≠ 3 = |V|`
both at the start and in the returned result. -/
theorem odd_count_leaves_vertex_unassigned :
    Graph.init [1, 2, 3] oddEdges = .ok gOdd ∧
    gOdd.vertices.length = 3 ∧
    setInitialLabels gOdd 3 = none ∧
    (groupA gOdd (stateAfter gOdd 0)).length +
      (groupB gOdd (stateAfter gOdd 0)).length = 2 ∧
    (partition gOdd).2.1.length + (partition gOdd).2.2.length = 2 :=
  ⟨rfl, by decide⟩

-- C4 counterexample ------------------------------------------------------

/-- C4 counterexample: with the edge list `[(1,3),(3,1)]` (the same pair in
both orientations) the adjacency lists keep one copy while
`get_partition_cost` scans both, so the first iteration accepts the pair
(1,4) with gain 1 while the full recomputation drops the cut from 2 to 0 —
an actual change of 2 ≠ 1. -/
theorem accepted_swap_gain_mismatch :
    Graph.init [1, 2, 3, 4] revEdges = .ok gRev ∧
    selectPair (gainsOf gRev (stateAfter gRev 0)) = some ((1, 4), 1) ∧
    get_partition_cost gRev (stateAfter gRev 0) = 2 ∧
    get_partition_cost gRev (stateAfter gRev 1) = 0 ∧
    (2 : Int) - 0 ≠ 1 :=
  ⟨rfl, by decide⟩

-- C5 counterexample ------------------------------------------------------

/-- C5 counterexample: with the edge list
`[(1,2),(2,1),(2,1),(1,3),(1,4),(3,2)]` the first outer iteration accepts
the pair (1,3) with gain 1, yet the cut cost rises from 3 (after the
initial bisection, i.e. after zero iterations) to 4 after the iteration,
and `partition` returns final cut 4 — the cut cost increases during the
run. -/
theorem cut_cost_increase :
    Graph.init [1, 2, 3, 4] incEdges = .ok gInc ∧
    selectPair (gainsOf gInc (stateAfter gInc 0)) = some ((1, 3), 1) ∧
    get_partition_cost gInc (stateAfter gInc 0) = 3 ∧
    get_partition_cost gInc (stateAfter gInc 1) = 4 ∧
    (partition gInc).1 = 4 :=
  ⟨rfl, by decide⟩

-- Cut-cost / D-value / c_ab as sums over the edge list ---------------------

theorem foldl_add_sum (f : Nat → Int) :
    ∀ (l : List Nat) (s : Int),
      l.foldl (fun acc j => acc + f j) s = s + (l.map f).sum := by
  intro l
  induction l with
  | nil => intro s; simp
  | cons x xs ih =>
    intro s
    simp only [List.foldl_cons, List.map_cons, List.sum_cons, ih]
    ring

theorem get_D_value_eq_sum (g : Graph) (L : Nat → Option Label) (v : Nat) :
    get_D_value g L v = ((g.adj v).map (fun j =>
      if L (eOther v (g.edges.getD j default)) ≠ L v then (1 : Int) else -1)).sum := by
  unfold get_D_value
  have hfun : (fun (D : Int) (j : Nat) =>
      let e := g.edges.getD j default
      let other := if e.right_id = v then e.left_id else e.right_id
      D + (if L other ≠ L v then 1 else -1)) =
      (fun (D : Int) (j : Nat) =>
        D + (if L (eOther v (g.edges.getD j default)) ≠ L v then (1 : Int) else -1)) := by
    funext D j
    rfl
  rw [hfun, foldl_add_sum]
  simp

theorem sum_map_filter_eq (p : Edge → Bool) (f : Edge → Int) :
    ∀ es : List Edge, ((es.filter p).map f).sum =
      (es.map (fun e => if p e then f e else 0)).sum := by
  intro es
  induction es with
  | nil => rfl
  | cons e es ih =>
    rw [List.filter_cons]
    by_cases hp : p e
    · simp [hp, ih]
    · simp [hp, ih]

theorem length_filter_sum (p : Edge → Bool) :
    ∀ es : List Edge, ((es.filter p).length : Int) =
      (es.map (fun e => if p e then (1 : Int) else 0)).sum := by
  intro es
  induction es with
  | nil => rfl
  | cons e es ih =>
    rw [List.filter_cons]
    by_cases hp : p e
    · simp [hp, ← ih]
      omega
    · simp [hp, ← ih]

theorem range_filter_map_getD (p : Edge → Bool) :
    ∀ es : List Edge,
      ((List.range es.length).filter (fun i => p (es.getD i default))).map
        (fun i => es.getD i default) = es.filter p := by
  intro es
  induction es with
  | nil => rfl
  | cons e es ih =>
    have htail : (List.map Nat.succ (List.range es.length)).filter
        (fun i => p ((e :: es).getD i default)) =
        ((List.range es.length).filter
          (fun i => p (es.getD i default))).map Nat.succ := by
      rw [List.filter_map]
      have hpt : ∀ i ∈ List.range es.length,
          ((fun i => p ((e :: es).getD i default)) ∘ Nat.succ) i =
            (fun i => p (es.getD i default)) i := by
        intro i _
        simp [Function.comp, List.getD_cons_succ]
      rw [List.filter_congr hpt]
    have hcomp : ((fun i => (e :: es).getD i default) ∘ Nat.succ) =
        (fun i => es.getD i default) := by
      funext i
      simp [Function.comp, List.getD_cons_succ]
    simp only [List.length_cons, List.range_succ_eq_map, List.filter_cons,
      List.getD_cons_zero]
    by_cases hp : p e
    · simp only [hp, if_true]
      rw [List.map_cons, htail, List.map_map, hcomp, ih]
      simp
    · simp only [hp, Bool.false_eq_true, if_false]
      rw [htail, List.map_map, hcomp, ih]

theorem sum_map_congr {f f' : Edge → Int} :
    ∀ es : List Edge, (∀ e ∈ es, f e = f' e) →
      (es.map f).sum = (es.map f').sum := by
  intro es
  induction es with
  | nil => intro _; rfl
  | cons e es ih =>
    intro h
    simp only [List.map_cons, List.sum_cons,
      h e (List.mem_cons_self e es), ih (fun x hx => h x (List.mem_cons_of_mem e hx))]

theorem cost_eq_sum (g : Graph) (L : Nat → Option Label) :
    (get_partition_cost g L : Int) = (g.edges.map (cutTerm L)).sum := by
  unfold get_partition_cost
  rw [length_filter_sum]
  apply sum_map_congr
  intro e _
  by_cases h : L e.left_id ≠ L e.right_id <;> simp [cutTerm, h]

theorem get_D_value_eq_dTerm_sum (g : Graph) (hadj : GoodAdj g)
    (L : Nat → Option Label) (v : Nat) :
    get_D_value g L v = (g.edges.map (dTerm L v)).sum := by
  rw [get_D_value_eq_sum, hadj v]
  have hmm : ((List.range g.edges.length).filter
        (fun i => decide (isIncident v (g.edges.getD i default)))).map
        (fun j => if L (eOther v (g.edges.getD j default)) ≠ L v
          then (1 : Int) else -1) =
      (((List.range g.edges.length).filter
        (fun i => decide (isIncident v (g.edges.getD i default)))).map
        (fun j => g.edges.getD j default)).map
        (fun e => if L (eOther v e) ≠ L v then (1 : Int) else -1) := by
    rw [List.map_map]
    rfl
  rw [hmm, range_filter_map_getD (fun e => decide (isIncident v e)) g.edges,
    sum_map_filter_eq]
  apply sum_map_congr
  intro e _
  by_cases hinc : isIncident v e
  · simp [dTerm, hinc]
  · simp [dTerm, hinc]

theorem cab_eq_sum (g : Graph) (hadj : GoodAdj g) (a b : Nat) :
    (cab g a b : Int) = (g.edges.map (cTerm a b)).sum := by
  have hnodupA : (g.adj a).Nodup := by
    rw [hadj a]
    exact (List.nodup_range _).filter _
  have hcongr : ∀ j ∈ g.adj a,
      (decide (j ∈ g.adj b)) =
        decide (isIncident b (g.edges.getD j default)) := by
    intro j hj
    have hjlt : j < g.edges.length := by
      rw [hadj a] at hj
      exact List.mem_range.1 (List.mem_filter.1 hj).1
    rw [decide_eq_decide]
    rw [hadj b]
    constructor
    · intro hmem
      exact of_decide_eq_true (List.mem_filter.1 hmem).2
    · intro hinc
      exact List.mem_filter.2 ⟨List.mem_range.2 hjlt, decide_eq_true hinc⟩
  unfold cab
  rw [List.filter_congr hcongr]
  rw [List.dedup_eq_self.2 (hnodupA.filter _)]
  rw [hadj a, List.filter_filter]
  have hlenmap : (((List.range g.edges.length).filter
      (fun i => decide (isIncident b (g.edges.getD i default)) &&
        decide (isIncident a (g.edges.getD i default)))).length : Int) =
      ((((List.range g.edges.length).filter
      (fun i => decide (isIncident b (g.edges.getD i default)) &&
        decide (isIncident a (g.edges.getD i default)))).map
        (fun i => g.edges.getD i default)).length : Int) := by
    rw [List.length_map]
  rw [hlenmap,
    range_filter_map_getD
      (fun e => decide (isIncident b e) && decide (isIncident a e)) g.edges,
    length_filter_sum]
  apply sum_map_congr
  intro e _
  by_cases hia : isIncident a e <;> by_cases hib : isIncident b e <;>
    simp [cTerm, hia, hib]

theorem edge_contrib (L : Nat → Option Label) (a b : Nat) (e : Edge)
    (hne : e.left_id ≠ e.right_id)
    (hLa : L a = some Label.A) (hLb : L b = some Label.B)
    (hu : (L e.left_id).isSome) (hv : (L e.right_id).isSome) :
    cutTerm L e - cutTerm (swapLabels L a b) e =
      dTerm L a e + dTerm L b e - 2 * cTerm a b e := by
  have hab : a ≠ b := by
    intro h
    rw [h, hLb] at hLa
    cases hLa
  obtain ⟨lu, hlu⟩ := Option.isSome_iff_exists.1 hu
  obtain ⟨lv, hlv⟩ := Option.isSome_iff_exists.1 hv
  unfold cutTerm dTerm cTerm isIncident eOther swapLabels
  by_cases h1 : e.left_id = a <;> by_cases h2 : e.left_id = b <;>
    by_cases h3 : e.right_id = a <;> by_cases h4 : e.right_id = b <;>
    cases lu <;> cases lv <;> simp_all

theorem sum_contrib (L : Nat → Option Label) (a b : Nat)
    (hLa : L a = some Label.A) (hLb : L b = some Label.B) :
    ∀ es : List Edge,
      (∀ e ∈ es, e.left_id ≠ e.right_id ∧
        (L e.left_id).isSome ∧ (L e.right_id).isSome) →
      (es.map (cutTerm L)).sum - (es.map (cutTerm (swapLabels L a b))).sum =
        (es.map (dTerm L a)).sum + (es.map (dTerm L b)).sum -
          2 * (es.map (cTerm a b)).sum := by
  intro es
  induction es with
  | nil => intro _; simp
  | cons e es ih =>
    intro h
    obtain ⟨hne, hu, hv⟩ := h e (List.mem_cons_self e es)
    have hrec := ih (fun f hf => h f (List.mem_cons_of_mem e hf))
    have hedge := edge_contrib L a b e hne hLa hLb hu hv
    simp only [List.map_cons, List.sum_cons]
    linarith

theorem swap_cut (g : Graph) (L : Nat → Option Label) (a b : Nat)
    (hadj : GoodAdj g)
    (hedges : ∀ e ∈ g.edges, e.left_id ≠ e.right_id ∧
      (L e.left_id).isSome ∧ (L e.right_id).isSome)
    (hLa : L a = some Label.A) (hLb : L b = some Label.B) :
    (get_partition_cost g L : Int) -
      get_partition_cost g (swapLabels L a b) =
      get_D_value g L a + get_D_value g L b - 2 * (cab g a b : Int) := by
  rw [cost_eq_sum, cost_eq_sum, get_D_value_eq_dTerm_sum g hadj,
    get_D_value_eq_dTerm_sum g hadj, cab_eq_sum g hadj]
  exact sum_contrib L a b hLa hLb g.edges hedges

-- Graph.init on clean edge lists produces exact incident adjacency --------

theorem initAdj_endpoints (es : List Edge) (vs : List Nat) :
    ∀ (rest : List Edge) (k : Nat) (adj : Nat → List Nat)
      (adj' : Nat → List Nat),
      initAdj es vs rest k adj = .ok adj' →
      ∀ e ∈ rest, e.left_id ∈ vs ∧ e.right_id ∈ vs := by
  intro rest
  induction rest with
  | nil => intro k adj adj' _ e he; cases he
  | cons e rest ih =>
    intro k adj adj' hok f hf
    by_cases hL : e.left_id ∈ vs
    · by_cases hR : e.right_id ∈ vs
      · simp only [initAdj, if_pos hL, if_pos hR] at hok
        rcases List.mem_cons.1 hf with rfl | hf'
        · exact ⟨hL, hR⟩
        · exact ih (k + 1) _ adj' hok f hf'
      · simp [initAdj, hL, hR] at hok
    · simp [initAdj, hL] at hok

theorem init_endpoints (vs : List Nat) (es : List Edge) (g : Graph)
    (hinit : Graph.init vs es = .ok g) :
    ∀ e ∈ es, e.left_id ∈ vs ∧ e.right_id ∈ vs := by
  obtain ⟨_, _, hadj⟩ := graph_init_elim hinit
  exact initAdj_endpoints es vs es 0 (fun _ => []) g.adj hadj

theorem initAdj_goodAdj (es : List Edge) (vs : List Nat)
    (hrev : ∀ e ∈ es, ∀ e' ∈ es,
      ¬(e.left_id = e'.right_id ∧ e.right_id = e'.left_id)) :
    ∀ (rest : List Edge) (k : Nat) (adj : Nat → List Nat),
      rest = es.drop k → k ≤ es.length →
      (∀ v, adj v = (List.range k).filter
        (fun i => decide (isIncident v (es.getD i default)))) →
      ∀ adj', initAdj es vs rest k adj = .ok adj' →
      ∀ v, adj' v = (List.range es.length).filter
        (fun i => decide (isIncident v (es.getD i default))) := by
  intro rest
  induction rest with
  | nil =>
    intro k adj hdrop hkle hinv adj' hok v
    simp only [initAdj, Except.ok.injEq] at hok
    subst hok
    have hk : k = es.length :=
      Nat.le_antisymm hkle (List.drop_eq_nil_iff.1 hdrop.symm)
    rw [hinv v, hk]
  | cons e rest ih =>
    intro k adj hdrop hkle hinv adj' hok v
    have hk : k < es.length := by
      by_contra hge
      rw [List.drop_eq_nil_iff.2 (Nat.le_of_not_lt hge)] at hdrop
      cases hdrop
    have hdrop' := hdrop
    rw [List.drop_eq_getElem_cons hk] at hdrop'
    injection hdrop' with h1 h2
    have hgetk : es.getD k default = e := by
      rw [List.getD_eq_getElem es default hk, ← h1]
    have hmem_e : e ∈ es := by
      rw [h1]
      exact List.getElem_mem _
    have hself : e.left_id ≠ e.right_id := by
      intro hsame
      exact hrev e hmem_e e hmem_e ⟨hsame, hsame.symm⟩
    have hguard : ∀ v' : Nat, add_edge es e k (adj v') = adj v' ++ [k] := by
      intro v'
      unfold add_edge
      rw [if_neg]
      intro hany
      obtain ⟨j, hj, hjf⟩ := List.any_eq_true.1 hany
      rw [hinv v'] at hj
      obtain ⟨hjr, _⟩ := List.mem_filter.1 hj
      have hjlt : j < k := List.mem_range.1 hjr
      have hjes : es.getD j default ∈ es := by
        rw [List.getD_eq_getElem es default (by omega)]
        exact List.getElem_mem _
      rw [Bool.and_eq_true, beq_iff_eq, beq_iff_eq] at hjf
      exact hrev _ hjes _ hmem_e ⟨hjf.1, hjf.2⟩
    by_cases hL : e.left_id ∈ vs
    · by_cases hR : e.right_id ∈ vs
      · simp only [initAdj, if_pos hL, if_pos hR] at hok
        refine ih (k + 1) _ h2 (by omega) ?_ adj' hok v
        intro w
        have hstep : ∀ t : Nat,
            (List.range k).filter
              (fun i => decide (isIncident t (es.getD i default))) ++
              (if isIncident t e then [k] else []) =
            (List.range (k + 1)).filter
              (fun i => decide (isIncident t (es.getD i default))) := by
          intro t
          rw [List.range_succ, List.filter_append]
          congr 1
          rw [List.filter_cons, List.filter_nil, hgetk]
          by_cases hti : isIncident t e
          · simp [hti]
          · simp [hti]
        by_cases hw2 : w = e.right_id
        · subst hw2
          simp only [if_pos rfl, if_neg (Ne.symm hself)]
          rw [hguard, hinv, ← hstep]
          simp [isIncident]
        · simp only [if_neg hw2]
          by_cases hw1 : w = e.left_id
          · subst hw1
            simp only [if_pos rfl]
            rw [hguard, hinv, ← hstep]
            simp [isIncident, hw2]
          · simp only [if_neg hw1]
            rw [hinv, ← hstep]
            have : ¬isIncident w e := by
              intro hcon
              rcases hcon with hcl | hcr
              · exact hw1 hcl.symm
              · exact hw2 hcr.symm
            simp [this]
      · simp [initAdj, hL, hR] at hok
    · simp [initAdj, hL] at hok

theorem init_goodAdj (vs : List Nat) (es : List Edge) (g : Graph)
    (hinit : Graph.init vs es = .ok g)
    (hrev : ∀ e ∈ es, ∀ e' ∈ es,
      ¬(e.left_id = e'.right_id ∧ e.right_id = e'.left_id)) :
    GoodAdj g := by
  obtain ⟨hv, he, hadj⟩ := graph_init_elim hinit
  intro v
  rw [he]
  exact initAdj_goodAdj es vs hrev es 0 (fun _ => []) rfl (Nat.zero_le _)
    (fun w => rfl) g.adj hadj v

theorem allSome_step (g : Graph) (L : Nat → Option Label) (h : allSome g L) :
    allSome g (klStep g L) := by
  cases hb : klBody g L with
  | none =>
    have hL : klStep g L = L := by simp [klStep, hb]
    rw [hL]
    exact h
  | some X =>
    obtain ⟨a, b, mg, hsel, hpos, hX1, hLa, hLb, haV, hbV, hmg⟩ :=
      klBody_some_elim hb
    have hstep : klStep g L = swapLabels L a b := by simp [klStep, hb, hX1]
    rw [hstep]
    intro v hvv
    unfold swapLabels
    by_cases hv1 : v = b
    · simp [hv1]
    · by_cases hv2 : v = a
      · simp [hv1, hv2]
        split <;> rfl
      · simp only [if_neg hv1, if_neg hv2]
        exact h v hvv

theorem allSome_stateAfter (g : Graph) (hnd : g.vertices.Nodup)
    (heven : g.vertices.length % 2 = 0) :
    ∀ k, allSome g (stateAfter g k) := by
  intro k
  induction k with
  | zero => exact allSome_initial g hnd heven
  | succ k ih =>
    rw [stateAfter]
    exact allSome_step g _ ih

theorem accepted_swap_cut_change (vs : List Nat) (es : List Edge) (g : Graph)
    (hinit : Graph.init vs es = .ok g) (hnd : vs.Nodup)
    (heven : vs.length % 2 = 0)
    (hrev : ∀ e ∈ es, ∀ e' ∈ es,
      ¬(e.left_id = e'.right_id ∧ e.right_id = e'.left_id))
    (k : Nat) (a b : Nat) (mg : Int)
    (hsel : selectPair (gainsOf g (stateAfter g k)) = some ((a, b), mg))
    (hpos : 0 < mg) :
    mg = get_D_value g (stateAfter g k) a + get_D_value g (stateAfter g k) b -
        2 * (cab g a b : Int) ∧
    (get_partition_cost g (stateAfter g k) : Int) -
      get_partition_cost g (stateAfter g (k + 1)) = mg := by
  obtain ⟨hv, he, _⟩ := graph_init_elim hinit
  have hgood := init_goodAdj vs es g hinit hrev
  have hnd' : g.vertices.Nodup := by rw [hv]; exact hnd
  have heven' : g.vertices.length % 2 = 0 := by rw [hv]; exact heven
  have hall := allSome_stateAfter g hnd' heven' k
  have hbody : klBody g (stateAfter g k) =
      some (swapLabels (stateAfter g k) a b,
        updateDValues g (fun v => get_D_value g (stateAfter g k) v)
          ((groupA g (stateAfter g k)).erase a)
          ((groupB g (stateAfter g k)).erase b) a b) := by
    unfold klBody
    rw [hsel]
    dsimp only
    rw [if_neg (by omega)]
  obtain ⟨a', b', mg', hsel', hpos', hX1, hLa, hLb, haV, hbV, hmg⟩ :=
    klBody_some_elim hbody
  have hids : a' = a ∧ b' = b ∧ mg' = mg := by
    have h := hsel'.symm.trans hsel
    simp only [Option.some.injEq, Prod.mk.injEq] at h
    exact ⟨h.1.1, h.1.2, h.2⟩
  obtain ⟨rfl, rfl, rfl⟩ := hids
  have hedges : ∀ e ∈ g.edges, e.left_id ≠ e.right_id ∧
      ((stateAfter g k) e.left_id).isSome ∧
      ((stateAfter g k) e.right_id).isSome := by
    intro e hee
    have hee' : e ∈ es := by rw [← he]; exact hee
    refine ⟨?_, ?_, ?_⟩
    · intro hsame
      exact hrev e hee' e hee' ⟨hsame, hsame.symm⟩
    · have hend := (init_endpoints vs es g hinit e hee').1
      exact hall e.left_id (by rw [hv]; exact hend)
    · have hend := (init_endpoints vs es g hinit e hee').2
      exact hall e.right_id (by rw [hv]; exact hend)
  have hstate : stateAfter g (k + 1) = swapLabels (stateAfter g k) a' b' := by
    rw [stateAfter]
    simp [klStep, hbody]
  constructor
  · exact hmg
  · rw [hstate, hmg]
    exact swap_cut g (stateAfter g k) a' b' hgood hedges hLa hLb

-- C4 amended theorem ------------------------------------------------------

/-- C4 amended: on graphs built from a vertex list with distinct ids, an
even vertex count, and an edge list containing no self-loops and no pair of
entries that are reverses of each other (so `Graph.init` keeps adjacency
and edge list consistent and every vertex gets labelled), every accepted
swap changes the recomputed cut cost by exactly the selected gain value
`D(a) + D(b) - 2*c_ab`. -/
theorem accepted_swap_gain_consistency (vs : List Nat) (es : List Edge)
    (g : Graph) (hinit : Graph.init vs es = .ok g) (hnd : vs.Nodup)
    (heven : vs.length % 2 = 0)
    (hrev : ∀ e ∈ es, ∀ e' ∈ es,
      ¬(e.left_id = e'.right_id ∧ e.right_id = e'.left_id))
    (k : Nat) (a b : Nat) (mg : Int)
    (hsel : selectPair (gainsOf g (stateAfter g k)) = some ((a, b), mg))
    (hpos : 0 < mg) :
    mg = get_D_value g (stateAfter g k) a + get_D_value g (stateAfter g k) b -
        2 * (cab g a b : Int) ∧
    (get_partition_cost g (stateAfter g k) : Int) -
      get_partition_cost g (stateAfter g (k + 1)) = mg :=
  accepted_swap_cut_change vs es g hinit hnd heven hrev k a b mg hsel hpos

/-- C4 amended witness: on the clean complete-bipartite-style graph
`gCross`, the first iteration selects the pair (1,3) with gain 2 and the
recomputed cut cost drops from 4 to 2 — exactly the gain. -/
theorem accepted_swap_gain_consistency_witness :
    Graph.init [1, 2, 3, 4] crossEdges = .ok gCross ∧
    ([1, 2, 3, 4] : List Nat).Nodup ∧
    ([1, 2, 3, 4] : List Nat).length % 2 = 0 ∧
    (∀ e ∈ crossEdges, ∀ e' ∈ crossEdges,
      ¬(e.left_id = e'.right_id ∧ e.right_id = e'.left_id)) ∧
    selectPair (gainsOf gCross (stateAfter gCross 0)) = some ((1, 3), 2) ∧
    (0 : Int) < 2 ∧
    get_partition_cost gCross (stateAfter gCross 0) = 4 ∧
    get_partition_cost gCross (stateAfter gCross 1) = 2 ∧
    (get_partition_cost gCross (stateAfter gCross 0) : Int) -
      get_partition_cost gCross (stateAfter gCross 1) = 2 :=
  ⟨rfl, by decide, by decide, by decide, by decide, by decide,
    by decide, by decide,
    (accepted_swap_gain_consistency [1, 2, 3, 4] crossEdges gCross rfl
      (by decide) (by decide) (by decide) 0 1 3 2 (by decide) (by decide)).2⟩

-- C5 amended theorem ------------------------------------------------------

/-- C5 amended: under the same cleanliness conditions (distinct vertex ids,
even vertex count, no self-loops, no reversed-duplicate edges), the cut
cost never increases during a run: each outer iteration either breaks (the
state is unchanged) or performs a swap whose strictly positive gain equals
the cut decrease. -/
theorem cut_cost_nonincreasing (vs : List Nat) (es : List Edge) (g : Graph)
    (hinit : Graph.init vs es = .ok g) (hnd : vs.Nodup)
    (heven : vs.length % 2 = 0)
    (hrev : ∀ e ∈ es, ∀ e' ∈ es,
      ¬(e.left_id = e'.right_id ∧ e.right_id = e'.left_id))
    (k : Nat) :
    get_partition_cost g (stateAfter g (k + 1)) ≤
      get_partition_cost g (stateAfter g k) := by
  cases hb : klBody g (stateAfter g k) with
  | none =>
    have hsame : stateAfter g (k + 1) = stateAfter g k := by
      rw [stateAfter]
      simp [klStep, hb]
    rw [hsame]
  | some X =>
    obtain ⟨a, b, mg, hsel, hpos, _, _, _, _, _, _⟩ := klBody_some_elim hb
    have hch :=
      (accepted_swap_cut_change vs es g hinit hnd heven hrev k a b mg hsel hpos).2
    omega

/-- C5 amended witness: on `gCross` the cut cost after the first iteration
(2) is at most the initial cut cost (4). -/
theorem cut_cost_nonincreasing_witness :
    Graph.init [1, 2, 3, 4] crossEdges = .ok gCross ∧
    ([1, 2, 3, 4] : List Nat).Nodup ∧
    ([1, 2, 3, 4] : List Nat).length % 2 = 0 ∧
    (∀ e ∈ crossEdges, ∀ e' ∈ crossEdges,
      ¬(e.left_id = e'.right_id ∧ e.right_id = e'.left_id)) ∧
    get_partition_cost gCross (stateAfter gCross 1) ≤
      get_partition_cost gCross (stateAfter gCross 0) :=
  ⟨rfl, by decide, by decide, by decide,
    cut_cost_nonincreasing [1, 2, 3, 4] crossEdges gCross rfl
      (by decide) (by decide) (by decide) 0⟩
